import Mathlib

/-!
# A verification development for the rusty-tree octree library

This file gives a shallow embedding, in Lean 4, of the per-process octree
operations of the `rusty-tree` repository (`src/octree.rs`) together with the
ownership-relevant behaviour of its C API (`crates/rusty-tree/src/c_api/`),
and proves properties of these embeddings.

Modelling conventions:

* Rust `HashSet<usize>` values holding Morton keys become `Finset MortonKey`;
  `HashMap<usize, HashSet<usize>>` values become functions
  `MortonKey → Option (Finset _)` (`none` = key absent from the map).
* Iteration over a `HashSet` / `HashMap` has an unspecified order; wherever a
  loop iterates such a container, the embedding takes the enumeration order as
  an explicit `List` parameter, and theorems quantify over every admissible
  order (an enumeration of the right element set, without duplicates where the
  container guarantees that).
* The Morton key algebra (`crate::morton`) is not part of the provided source
  tree; those functions are modelled from the specification and say so in
  their doc comments.
-/

/-- Modelled from the spec: the `MortonKey` data model of `crate::morton`
(not under the provided sources).  A key is determined by its three anchor
coordinates and its level ("Two keys are equal iff their anchors and levels
are equal"); anchors are kept at level granularity, so the cell of a key at
level `l` has anchor coordinates in `[0, 2^l)`. -/
structure MortonKey where
  ax : Int
  ay : Int
  az : Int
  level : Nat
deriving DecidableEq, Repr

/-- Modelled from the spec: `morton::find_level` returns the level stored in
the key. -/
def findLevel (k : MortonKey) : Nat :=
  k.level

/-- Modelled from the spec: `morton::find_parent`.  `parent(k)` is the unique
key at level `l - 1` whose cell contains `k`'s cell: each anchor coordinate is
halved and the level decremented. -/
def findParent (k : MortonKey) : MortonKey :=
  ⟨k.ax / 2, k.ay / 2, k.az / 2, k.level - 1⟩

/-- The 26 offsets `(dx, dy, dz) ∈ {-1,0,1}^3 \ {(0,0,0)}` used by the
neighbor query. -/
def neighborOffsets : List (Int × Int × Int) :=
  (([-1, 0, 1].flatMap fun dx =>
    [-1, 0, 1].flatMap fun dy =>
    [-1, 0, 1].map fun dz => (dx, dy, dz))).filter (fun d => d ≠ (0, 0, 0))

/-- Modelled from the spec: `morton::neighbors` — the up to 26 same-level keys
whose anchors differ by `±1` in any dimension; out-of-domain neighbors (an
anchor coordinate outside `[0, 2^l)`) are omitted. -/
def mortonNeighbors (k : MortonKey) : Finset MortonKey :=
  (neighborOffsets.filterMap (fun d =>
    let nx := k.ax + d.1
    let ny := k.ay + d.2.1
    let nz := k.az + d.2.2
    if 0 ≤ nx ∧ nx < 2 ^ k.level ∧ 0 ≤ ny ∧ ny < 2 ^ k.level ∧
        0 ≤ nz ∧ nz < 2 ^ k.level then
      some ⟨nx, ny, nz, k.level⟩
    else none)).toFinset

/-- Modelled from the spec: `morton::compute_near_field k` is
`neighbors(k) ∪ {k}`. -/
def computeNearField (k : MortonKey) : Finset MortonKey :=
  insert k (mortonNeighbors k)

/-- The 8 child offsets `(dx, dy, dz) ∈ {0,1}^3`. -/
def childOffsets : List (Int × Int × Int) :=
  [0, 1].flatMap fun dx => [0, 1].flatMap fun dy => [0, 1].map fun dz => (dx, dy, dz)

/-- Modelled from the spec: `morton::children` — the eight keys at level
`l + 1` whose cells tile `k`'s cell. -/
def mortonChildren (k : MortonKey) : Finset MortonKey :=
  (childOffsets.map (fun d =>
    MortonKey.mk (2 * k.ax + d.1) (2 * k.ay + d.2.1) (2 * k.az + d.2.2)
      (k.level + 1))).toFinset

/-- Modelled from the spec: `morton::compute_interaction_list k`.  With
`P = parent(k)`, it is `{c ∈ children(n) | n ∈ near_field(P)} \ near_field(k)`;
for the root it is empty. -/
def computeInteractionList (k : MortonKey) : Finset MortonKey :=
  if k.level = 0 then ∅
  else ((computeNearField (findParent k)).biUnion mortonChildren) \
      computeNearField k

/-! ## The relation maps of `src/octree.rs`

`compute_interaction_list_map` and `compute_near_field_map` both run two
loops: a first loop over the `all_keys` set inserting an empty set for every
key, and a second (`par_iter_mut`) loop over the map's entries extending each
entry's set with the algebraic relation of its key.  The enumeration orders of
the two loops are the `allKeys` and `entriesOrd` list parameters. -/

/-- The first loop of both map builders: insert `some v` for every key of the
enumeration, starting from the empty map. -/
def insertConstAll {β : Type} (v : β) (keys : List MortonKey) :
    MortonKey → Option β :=
  keys.foldl (fun m k => fun q => if q = k then some v else m q)
    (fun _ => none)

/-- The second loop of both map builders: for each processed entry `k`,
extend the stored set with `f k` (in-place `HashSet::extend`). -/
def extendAll (f : MortonKey → Finset MortonKey) (entries : List MortonKey)
    (m : MortonKey → Option (Finset MortonKey)) :
    MortonKey → Option (Finset MortonKey) :=
  entries.foldl
    (fun m k => fun q => if q = k then (m q).map (fun s => s ∪ f k) else m q) m

/-- Embedding of `octree::compute_interaction_list_map` (src/octree.rs:109).
`allKeys` is the enumeration order of the `all_keys : HashSet` argument in the
insertion loop, `entriesOrd` the order in which `par_iter_mut` processes the
map's entries. -/
def computeInteractionListMap (allKeys entriesOrd : List MortonKey) :
    MortonKey → Option (Finset MortonKey) :=
  extendAll computeInteractionList entriesOrd (insertConstAll ∅ allKeys)

/-- Embedding of `octree::compute_near_field_map` (src/octree.rs:133), with
the same order parameters as `computeInteractionListMap`. -/
def computeNearFieldMap (allKeys entriesOrd : List MortonKey) :
    MortonKey → Option (Finset MortonKey) :=
  extendAll computeNearField entriesOrd (insertConstAll ∅ allKeys)

/-! ## `compute_leaf_map` (src/octree.rs:154) -/

/-- Embedding of `octree::compute_leaf_map`.  The first loop inserts an empty
index set for every distinct particle key (`itertools::unique`; only the set
of distinct keys matters, mirrored here by `dedup`); the second loop walks the
particle key array in index order and inserts each index into its key's
entry. -/
def computeLeafMap (particleKeys : List MortonKey) :
    MortonKey → Option (Finset Nat) :=
  particleKeys.enum.foldl
    (fun m p => fun q => if q = p.2 then (m q).map (insert p.1) else m q)
    (insertConstAll ∅ particleKeys.dedup)

/-- `computeLeafMap` with an explicit enumeration order for the first
(distinct-keys) loop, used to state order independence. -/
def computeLeafMapWithInit (initOrd particleKeys : List MortonKey) :
    MortonKey → Option (Finset Nat) :=
  particleKeys.enum.foldl
    (fun m p => fun q => if q = p.2 then (m q).map (insert p.1) else m q)
    (insertConstAll ∅ initOrd)

/-! ## `compute_level_information` (src/octree.rs:177)

The Rust function computes
`max_level = particle_keys.iter().map(find_level).max().unwrap()` (a panic on
an empty array, modelled as `none`), distributes the leaf keys into
`level_keys[0 ..= max_level]`, then walks the levels from `max_level` down to
`1`, adding the parents of each level's keys to the level below, and finally
unions all per-level sets into `all_keys`. -/

/-- Rust iterator `max()`: `none` on the empty iterator, otherwise the
maximum. -/
def listMaxNat : List Nat → Option Nat
  | [] => none
  | x :: xs => some (xs.foldl Nat.max x)

/-- The leaf keys whose level is `l` (the filter collected by the
distribution loop). -/
def levelLeaves (leafKeys : Finset MortonKey) (l : Nat) : Finset MortonKey :=
  leafKeys.filter (fun k => findLevel k = l)

/-- The initial `level_keys` map: for each level `0 ..= maxLevel`, the leaf
keys whose level is that level. -/
def levelInit (leafKeys : Finset MortonKey) (maxLevel : Nat) :
    Nat → Option (Finset MortonKey) :=
  fun l => if l < maxLevel + 1 then some (levelLeaves leafKeys l) else none

/-- One iteration of the parent-filling loop at `currentLevel`: extend the
entry at `currentLevel - 1` by the parents of the keys stored at
`currentLevel`. -/
def levelStep (lk : Nat → Option (Finset MortonKey)) (currentLevel : Nat) :
    Nat → Option (Finset MortonKey) :=
  fun l =>
    if l = currentLevel - 1 then
      (lk l).map (fun s => s ∪ ((lk currentLevel).getD ∅).image findParent)
    else lk l

/-- The iteration order `(1..nlevels).rev()` of the parent-filling loop:
`revRangeFromOne n = [n, n-1, …, 1]`. -/
def revRangeFromOne : Nat → List Nat
  | 0 => []
  | n + 1 => (n + 1) :: revRangeFromOne n

/-- Embedding of `octree::compute_level_information`.  Returns `none` when
the input array is empty (the `max().unwrap()` panic), otherwise
`some (max_level, all_keys, level_keys)`. -/
def computeLevelInformation (particleKeys : List MortonKey) :
    Option (Nat × Finset MortonKey × (Nat → Option (Finset MortonKey))) :=
  match listMaxNat (particleKeys.map findLevel) with
  | none => none
  | some maxLevel =>
      let leafKeys : Finset MortonKey := particleKeys.toFinset
      let lk := (revRangeFromOne maxLevel).foldl levelStep
          (levelInit leafKeys maxLevel)
      let allKeys := (Finset.range (maxLevel + 1)).biUnion
          (fun l => (lk l).getD ∅)
      some (maxLevel, allKeys, lk)

/-- Closed form of the parent-filling loop, by downward recursion: the final
contents of `level_keys[maxLevel - d]` (`d = 0` is the deepest level). -/
def levelFinalAux (leafKeys : Finset MortonKey) (maxLevel : Nat) :
    Nat → Finset MortonKey
  | 0 => levelLeaves leafKeys maxLevel
  | d + 1 => levelLeaves leafKeys (maxLevel - (d + 1)) ∪
      (levelFinalAux leafKeys maxLevel d).image findParent

/-- The final contents of `level_keys[l]` after the parent-filling loop. -/
def levelFinal (leafKeys : Finset MortonKey) (maxLevel l : Nat) :
    Finset MortonKey :=
  levelFinalAux leafKeys maxLevel (maxLevel - l)

/-- The map state of the parent-filling loop just before processing
`currentLevel = c` (levels `maxLevel, …, c` already processed): entries at
index `≥ c - 1` hold their final contents, lower entries still hold only the
leaf keys of their level. -/
def levelStateAt (leafKeys : Finset MortonKey) (maxLevel c : Nat) :
    Nat → Option (Finset MortonKey) :=
  fun l => if l < maxLevel + 1 then
    some (if c ≤ l + 1 then levelFinal leafKeys maxLevel l
      else levelLeaves leafKeys l)
  else none

/-! ## `compute_complete_regular_tree` (src/octree.rs:237) -/

/-- Modelled from the spec: `morton::encode_point` — translate the coordinate
into the unit cube of the bounding box, compute
`ai = floor(xi · 2^l)` clamped to `[0, 2^l − 1]`, and form the key at level
`l`.  Coordinates are taken as rationals. -/
def encodePoint (l : Nat) (origin diameter : ℚ × ℚ × ℚ) (p : ℚ × ℚ × ℚ) :
    MortonKey :=
  let coord : ℚ → ℚ → ℚ → Int := fun x o d =>
    min (max (⌊(x - o) / d * (2 ^ l : ℚ)⌋) 0) (2 ^ l - 1)
  ⟨coord p.1 origin.1 diameter.1, coord p.2.1 origin.2.1 diameter.2.1,
    coord p.2.2 origin.2.2 diameter.2.2, l⟩

/-- Modelled from the spec: `morton::encode_points` — encode each particle at
the given level. -/
def encodePoints (particles : List (ℚ × ℚ × ℚ)) (maxLevel : Nat)
    (origin diameter : ℚ × ℚ × ℚ) : List MortonKey :=
  particles.map (encodePoint maxLevel origin diameter)

/-- Embedding of `octree::compute_complete_regular_tree`: encode the
particles, then return the `all_keys` component of
`compute_level_information`.  `none` models the abort on an empty particle
set. -/
def computeCompleteRegularTree (particles : List (ℚ × ℚ × ℚ))
    (maxLevel : Nat) (origin diameter : ℚ × ℚ × ℚ) :
    Option (Finset MortonKey) :=
  (computeLevelInformation (encodePoints particles maxLevel origin diameter)).map
    (fun t => t.2.1)

/-! ## `export_to_vtk` (src/octree.rs:252)

The exporter is modelled by the pure construction of the VTK unstructured
grid data (point coordinates, connectivity, offsets, cell types, and the
`colors` cell attribute); the final `model.export(filename)` write is an I/O
sink outside the model.  `serialize_box_from_key` lives in `crate::morton`
(not under the provided sources) and is taken as a function parameter
producing the serialized corner coordinates of a key's box (8 corners × 3
coordinates = 24 scalars); the coordinate scalar type is abstract. -/

/-- The two VTK cell types used by the exporter. -/
inductive VtkCellType
  | Voxel
  | PolyVertex
deriving DecidableEq, Repr

/-- The parts of the `vtkio` model that `export_to_vtk` fills in. -/
structure VtkGrid (α : Type) where
  cellPoints : List α
  connectivity : List Nat
  offsets : List Nat
  types : List VtkCellType
  cellData : List Int

/-- The fields of `octree::Octree` that `export_to_vtk` reads.  `allKeys` is
the enumeration order of the `all_keys : HashSet` field; `particleKeys` is
the `particle_keys` array (its distinct values are the leaf keys of the
tree); `particles` holds one coordinate triple per particle. -/
structure OctreeData (α : Type) where
  particles : List (α × α × α)
  allKeys : List MortonKey
  particleKeys : List MortonKey

/-- Embedding of `octree::export_to_vtk`: one voxel cell (8 points) per key
of `all_keys`, then one poly-vertex cell holding every particle coordinate;
`connectivity` is `0 ..< num_points`, the voxel offsets are `8i + 8` followed
by the total point count, and the `colors` attribute is `0` per voxel cell
and `1` for the poly-vertex cell. -/
def exportToVtk {α : Type} (serializeBox : MortonKey → List α)
    (tree : OctreeData α) : VtkGrid α :=
  let numParticles := tree.particles.length
  let numKeys := tree.allKeys.length
  let cellPoints := tree.allKeys.flatMap serializeBox ++
      tree.particles.flatMap (fun p => [p.1, p.2.1, p.2.2])
  let numPoints := 8 * numKeys + numParticles
  { cellPoints := cellPoints
    connectivity := List.range numPoints
    offsets := (List.range numKeys).map (fun i => 8 * i + 8) ++ [numPoints]
    types := List.replicate numKeys VtkCellType.Voxel ++ [VtkCellType.PolyVertex]
    cellData := List.replicate numKeys (0 : Int) ++ [(1 : Int)] }

/-! ## The C API (crates/rusty-tree/src/c_api/distributed.rs)

`DistributedTree` itself (`crate::distributed`) is not under the provided
sources; per the spec's data model it owns `points`, `keys` and the
`balanced` flag recorded at build time.  The accessor wrappers take a shared
reference and read one field; each is modelled as returning the read value
together with the (unchanged) tree state. -/

/-- Modelled from the spec: the `DistributedTree` data model —
`{points: ordered sequence of Point, keys: ordered sequence of MortonKey,
balanced: bool}` (the point type is abstract here). -/
structure DistributedTree (P : Type) where
  points : List P
  keys : List MortonKey
  balanced : Bool

/-- Embedding of `distributed_tree_nkeys`: dereference the tree handle and
return `tree.keys.len()`; the tree state is returned unchanged (the wrapper
holds only a shared reference). -/
def distributedTreeNkeys {P : Type} (t : DistributedTree P) :
    Nat × DistributedTree P :=
  (t.keys.length, t)

/-- Embedding of `distributed_tree_npoints`: return `tree.points.len()`. -/
def distributedTreeNpoints {P : Type} (t : DistributedTree P) :
    Nat × DistributedTree P :=
  (t.points.length, t)

/-- Embedding of `distributed_tree_balanced`: return `tree.balanced`. -/
def distributedTreeBalanced {P : Type} (t : DistributedTree P) :
    Bool × DistributedTree P :=
  (t.balanced, t)

/-! ### Ownership model of the FFI entry points

The entry points are modelled by their effect on an abstract allocation
state: the set of caller-visible live buffer allocations and the set of open
communicators (both named by numeric ids).  The translation of each body
records exactly which raw-pointer arguments are freed and whether the
communicator is closed:

* `slice::from_raw_parts` borrows a buffer — no effect;
* `UserCommunicator::from_raw` wrapped in `ManuallyDrop` suppresses the
  communicator's `Drop` (`MPI_Comm_free`) — the open-communicator set is
  unchanged;
* `CString::from_raw(p)` takes ownership of the buffer `p`; the resulting
  temporary `CString` is dropped at the end of the statement, deallocating
  `p` — modelled by erasing `p` from the live set;
* `Box::into_raw(Box::new(..))` allocates the returned handle. -/

structure FfiState where
  liveAllocs : Finset Nat
  openComms : Finset Nat
deriving DecidableEq

/-- Embedding of `distributed_tree_from_points` (distributed.rs:17): the
points buffer is borrowed, the communicator is `ManuallyDrop`-wrapped, and a
new tree allocation is returned. -/
def distributedTreeFromPoints (st : FfiState) (pPoints comm treeAlloc : Nat) :
    FfiState :=
  { liveAllocs := insert treeAlloc st.liveAllocs
    openComms := st.openComms }

/-- Embedding of `distributed_tree_write_vtk` (distributed.rs:61): the
filename buffer is consumed by `CString::from_raw` and freed when the
temporary is dropped; the communicator is `ManuallyDrop`-wrapped; the tree is
only read. -/
def distributedTreeWriteVtk (st : FfiState) (comm pTree pFilename : Nat) :
    FfiState :=
  { liveAllocs := st.liveAllocs.erase pFilename
    openComms := st.openComms }

/-- Embedding of `distributed_tree_write_hdf5` (distributed.rs:79): same
ownership behaviour as `distributed_tree_write_vtk`. -/
def distributedTreeWriteHdf5 (st : FfiState) (comm pTree pFilename : Nat) :
    FfiState :=
  { liveAllocs := st.liveAllocs.erase pFilename
    openComms := st.openComms }

/-- Embedding of `distributed_tree_read_hdf5` (distributed.rs:95): the
filepath buffer is consumed by `CString::from_raw` and freed; the
communicator is `ManuallyDrop`-wrapped; a new tree allocation is returned. -/
def distributedTreeReadHdf5 (st : FfiState) (comm pFilepath treeAlloc : Nat) :
    FfiState :=
  { liveAllocs := insert treeAlloc (st.liveAllocs.erase pFilepath)
    openComms := st.openComms }

/-- Modelled from the spec: `destroy(handle)` — dropping the boxed tree frees
the tree allocation; per the spec's data model the tree owns only its points
and keys ("Communicator handles are shared non-owning references; the tree
never closes them"), so no communicator is closed. -/
def distributedTreeDestroy (st : FfiState) (pTree : Nat) : FfiState :=
  { liveAllocs := st.liveAllocs.erase pTree
    openComms := st.openComms }

/-! ## Concrete keys and trees used in witnesses and counterexamples -/

/-- The root key. -/
def rootKey : MortonKey := ⟨0, 0, 0, 0⟩

/-- A level-1 key with anchor `(0,0,0)`. -/
def keyA : MortonKey := ⟨0, 0, 0, 1⟩

/-- A level-1 key with anchor `(1,0,0)`: an in-domain neighbor of `keyA`. -/
def keyB : MortonKey := ⟨1, 0, 0, 1⟩

/-- A concrete octree snapshot whose `all_keys` is the completion of the
single leaf `keyA` (so `all_keys = {rootKey, keyA}` while the only leaf key
is `keyA`). -/
def treeC3 : OctreeData Int :=
  { particles := [((0 : Int), (0 : Int), (0 : Int))]
    allKeys := [rootKey, keyA]
    particleKeys := [keyA] }

/-- The index set collected for key `q` from an indexed key list (the closed
form of the index-insertion loop of `compute_leaf_map`). -/
def enumIndexSet (l : List (Nat × MortonKey)) (q : MortonKey) : Finset Nat :=
  (l.filterMap (fun p => if p.2 = q then some p.1 else none)).toFinset

/-- A trivial box serializer for the concrete VTK counterexample. -/
def serializeBox24 : MortonKey → List Int := fun _ => List.replicate 24 0

/-! ## Helper lemmas on the map-building folds -/

theorem insertConstAll_apply {β : Type} (v : β) (keys : List MortonKey)
    (q : MortonKey) :
    insertConstAll v keys q = if q ∈ keys then some v else none := by
  suffices h : ∀ m : MortonKey → Option β,
      (keys.foldl (fun m k => fun q => if q = k then some v else m q) m) q =
        if q ∈ keys then some v else m q by
    exact h (fun _ => none)
  induction keys with
  | nil => intro m; simp
  | cons k rest ih =>
      intro m
      simp only [List.foldl_cons]
      rw [ih]
      by_cases hq : q ∈ rest
      · simp [hq]
      · by_cases hk : q = k <;> simp [hq, hk, List.mem_cons]

theorem extendAll_apply (f : MortonKey → Finset MortonKey)
    (entries : List MortonKey) (hnd : entries.Nodup)
    (m : MortonKey → Option (Finset MortonKey)) (q : MortonKey) :
    extendAll f entries m q =
      if q ∈ entries then (m q).map (fun s => s ∪ f q) else m q := by
  induction entries generalizing m with
  | nil => simp [extendAll]
  | cons k rest ih =>
      rcases List.nodup_cons.mp hnd with ⟨hk, hrest⟩
      simp only [extendAll, List.foldl_cons] at *
      rw [ih hrest]
      by_cases hq : q = k
      · subst hq
        have hqr : q ∉ rest := hk
        simp [hqr]
      · by_cases hqr : q ∈ rest <;> simp [hq, hqr, List.mem_cons]

theorem relationMap_apply (f : MortonKey → Finset MortonKey)
    (allKeys entriesOrd : List MortonKey)
    (h : entriesOrd.toFinset = allKeys.toFinset) (hnd : entriesOrd.Nodup)
    (q : MortonKey) :
    extendAll f entriesOrd (insertConstAll ∅ allKeys) q =
      if q ∈ allKeys then some (f q) else none := by
  have hmem : q ∈ entriesOrd ↔ q ∈ allKeys := by
    rw [← List.mem_toFinset, h, List.mem_toFinset]
  rw [extendAll_apply f entriesOrd hnd, insertConstAll_apply]
  by_cases hq : q ∈ allKeys
  · simp [hq, hmem.mpr hq]
  · simp [hq, fun hc => hq (hmem.mp hc)]

/-- C1: the claim asserts that `compute_near_field_map` intersects the
algebraic near field with the set of present keys (lifting coarser
neighbors).  Counterexample: on the key set `{keyA}`, the built map sends
`keyA` to a set containing `keyB`, which is not present in the tree. -/
theorem c1_counterexample :
    keyB ∈ ((computeNearFieldMap [keyA] [keyA]) keyA).getD ∅ ∧
    keyB ∉ ([keyA] : List MortonKey).toFinset := by
  decide

/-- C1 (amended): for every input key set and every admissible iteration
order, `compute_near_field_map` maps each present key `k` to the full
algebraic near field `compute_near_field k`; no intersection with the set of
present keys and no ancestor lifting is performed. -/
theorem c1_near_field_map_is_algebraic (allKeys entriesOrd : List MortonKey)
    (h : entriesOrd.toFinset = allKeys.toFinset) (hnd : entriesOrd.Nodup)
    (k : MortonKey) (hk : k ∈ allKeys) :
    computeNearFieldMap allKeys entriesOrd k = some (computeNearField k) := by
  rw [computeNearFieldMap, relationMap_apply _ _ _ h hnd, if_pos hk]

theorem c1_near_field_map_is_algebraic_witness :
    ([keyA] : List MortonKey).toFinset = ([keyA] : List MortonKey).toFinset ∧
    ([keyA] : List MortonKey).Nodup ∧ keyA ∈ [keyA] ∧
    computeNearFieldMap [keyA] [keyA] keyA = some (computeNearField keyA) :=
  ⟨rfl, by decide, by decide,
    c1_near_field_map_is_algebraic [keyA] [keyA] rfl (by decide) keyA
      (by decide)⟩

/-- C2: for every input key set and admissible iteration order, both
relation-map builders return a total result (the embedding is a total
function; the source loops contain no fallible operation) whose domain is
exactly the input key set, and a present key whose relation set is empty is
mapped to the empty set rather than being absent. -/
theorem c2_relation_map_domain (allKeys entriesOrd : List MortonKey)
    (h : entriesOrd.toFinset = allKeys.toFinset) (hnd : entriesOrd.Nodup)
    (q : MortonKey) :
    ((computeNearFieldMap allKeys entriesOrd q).isSome ↔ q ∈ allKeys) ∧
    ((computeInteractionListMap allKeys entriesOrd q).isSome ↔ q ∈ allKeys) ∧
    (q ∈ allKeys → computeNearField q = ∅ →
      computeNearFieldMap allKeys entriesOrd q = some ∅) ∧
    (q ∈ allKeys → computeInteractionList q = ∅ →
      computeInteractionListMap allKeys entriesOrd q = some ∅) := by
  rw [computeNearFieldMap, computeInteractionListMap,
    relationMap_apply _ _ _ h hnd, relationMap_apply _ _ _ h hnd]
  by_cases hq : q ∈ allKeys
  · refine ⟨by simp [hq], by simp [hq], fun _ he => ?_, fun _ he => ?_⟩
    · simp [hq, he]
    · simp [hq, he]
  · exact ⟨by simp [hq], by simp [hq], fun hc => absurd hc hq,
      fun hc => absurd hc hq⟩

theorem c2_relation_map_domain_witness :
    ([rootKey] : List MortonKey).toFinset =
      ([rootKey] : List MortonKey).toFinset ∧
    ([rootKey] : List MortonKey).Nodup ∧
    rootKey ∈ [rootKey] ∧ computeInteractionList rootKey = ∅ ∧
    (((computeNearFieldMap [rootKey] [rootKey] rootKey).isSome ↔
        rootKey ∈ [rootKey]) ∧
      ((computeInteractionListMap [rootKey] [rootKey] rootKey).isSome ↔
        rootKey ∈ [rootKey]) ∧
      (rootKey ∈ [rootKey] → computeNearField rootKey = ∅ →
        computeNearFieldMap [rootKey] [rootKey] rootKey = some ∅) ∧
      (rootKey ∈ [rootKey] → computeInteractionList rootKey = ∅ →
        computeInteractionListMap [rootKey] [rootKey] rootKey = some ∅)) :=
  ⟨rfl, by decide, by decide, by decide,
    c2_relation_map_domain [rootKey] [rootKey] rfl (by decide) rootKey⟩

/-! ## The index-insertion fold of `compute_leaf_map` -/

theorem leafFold_apply (l : List (Nat × MortonKey))
    (m : MortonKey → Option (Finset Nat)) (q : MortonKey) :
    (l.foldl
      (fun m p => fun q => if q = p.2 then (m q).map (insert p.1) else m q)
      m) q = (m q).map (fun s => s ∪ enumIndexSet l q) := by
  induction l generalizing m with
  | nil =>
      simp [enumIndexSet]
  | cons p rest ih =>
      simp only [List.foldl_cons]
      rw [ih]
      by_cases hq : q = p.2
      · have hone : (if p.2 = q then some p.1 else none) = some p.1 :=
          if_pos hq.symm
        have hf : enumIndexSet (p :: rest) q =
            insert p.1 (enumIndexSet rest q) := by
          simp [enumIndexSet, List.filterMap_cons, hone]
        rw [hf]
        simp only [if_pos hq, Option.map_map]
        cases m q with
        | none => rfl
        | some s =>
            simp [Finset.insert_union, Finset.union_insert]
      · have hone : (if p.2 = q then some p.1 else none) = none :=
          if_neg (fun h : p.2 = q => hq h.symm)
        have hf : enumIndexSet (p :: rest) q = enumIndexSet rest q := by
          simp [enumIndexSet, List.filterMap_cons, hone]
        rw [hf, if_neg hq]

theorem computeLeafMap_apply (pks : List MortonKey) (q : MortonKey) :
    computeLeafMap pks q =
      if q ∈ pks then some (enumIndexSet pks.enum q) else none := by
  rw [computeLeafMap, leafFold_apply, insertConstAll_apply]
  by_cases hq : q ∈ pks
  · simp [hq, List.mem_dedup]
  · simp [hq, List.mem_dedup]

theorem mem_enumIndexSet (pks : List MortonKey) (q : MortonKey) (i : Nat) :
    i ∈ enumIndexSet pks.enum q ↔ pks.get? i = some q := by
  rw [enumIndexSet, List.mem_toFinset, List.mem_filterMap]
  constructor
  · rintro ⟨p, hp, hif⟩
    by_cases h2 : p.2 = q
    · rw [if_pos h2] at hif
      have hi : p.1 = i := by simpa using hif
      have : (i, q) ∈ pks.enum := by
        rw [← hi, ← h2]
        exact hp
      exact List.mk_mem_enum_iff_get?.mp this
    · rw [if_neg h2] at hif
      exact absurd hif (by simp)
  · intro h
    exact ⟨(i, q), List.mk_mem_enum_iff_get?.mpr h, by simp⟩

/-- C4: `compute_leaf_map` is the exact inverse of the point-to-leaf
assignment: the map is defined exactly on the keys occurring in the particle
key array; index `i` lies in the set of key `k` iff the `i`-th particle key
is `k`; the index sets of distinct keys are disjoint; and the union of all
index sets is `{0, …, N−1}`. -/
theorem c4_leaf_map_inverse (pks : List MortonKey) :
    (∀ q, (computeLeafMap pks q).isSome ↔ q ∈ pks) ∧
    (∀ k i, i ∈ (computeLeafMap pks k).getD ∅ ↔ pks.get? i = some k) ∧
    (∀ k k2, k ≠ k2 →
      Disjoint ((computeLeafMap pks k).getD ∅)
        ((computeLeafMap pks k2).getD ∅)) ∧
    pks.toFinset.biUnion (fun k => (computeLeafMap pks k).getD ∅) =
      Finset.range pks.length := by
  have hmem : ∀ k i, i ∈ (computeLeafMap pks k).getD ∅ ↔
      pks.get? i = some k := by
    intro k i
    rw [computeLeafMap_apply]
    by_cases hk : k ∈ pks
    · rw [if_pos hk]
      simp only [Option.getD_some]
      exact mem_enumIndexSet pks k i
    · rw [if_neg hk]
      simp only [Option.getD_none, Finset.not_mem_empty, false_iff]
      intro hc
      exact hk (List.get?_mem hc)
  refine ⟨?_, hmem, ?_, ?_⟩
  · intro q
    rw [computeLeafMap_apply]
    by_cases hq : q ∈ pks <;> simp [hq]
  · intro k k2 hne
    rw [Finset.disjoint_left]
    intro i hi1 hi2
    have e1 := (hmem k i).mp hi1
    have e2 := (hmem k2 i).mp hi2
    exact hne (by rw [e1] at e2; exact Option.some_inj.mp e2)
  · ext i
    simp only [Finset.mem_biUnion, Finset.mem_range, List.mem_toFinset]
    constructor
    · rintro ⟨k, _, hi⟩
      have hg := (hmem k i).mp hi
      have hne : pks.get? i ≠ none := by rw [hg]; simp
      rw [Ne, List.get?_eq_none] at hne
      omega
    · intro hi
      have hget := List.get?_eq_get (show i < pks.length from hi)
      refine ⟨pks.get ⟨i, hi⟩, List.get_mem pks i hi, ?_⟩
      rw [hmem]
      exact hget

theorem c4_leaf_map_inverse_witness :
    keyA ≠ keyB ∧
    ((0 : Nat) ∈ (computeLeafMap [keyA, keyB, keyA] keyA).getD ∅ ↔
      [keyA, keyB, keyA].get? 0 = some keyA) ∧
    Disjoint ((computeLeafMap [keyA, keyB, keyA] keyA).getD ∅)
      ((computeLeafMap [keyA, keyB, keyA] keyB).getD ∅) :=
  ⟨by decide, (c4_leaf_map_inverse [keyA, keyB, keyA]).2.1 keyA 0,
    (c4_leaf_map_inverse [keyA, keyB, keyA]).2.2.1 keyA keyB (by decide)⟩

/-! ## Determinism helpers -/

theorem foldl_max_init_le (xs : List Nat) (a : Nat) :
    a ≤ xs.foldl Nat.max a := by
  induction xs generalizing a with
  | nil => exact le_refl a
  | cons x rest ih => exact le_trans (Nat.le_max_left a x) (ih (Nat.max a x))

theorem foldl_max_le (xs : List Nat) (a : Nat) (b : Nat) (hb : b ∈ xs) :
    b ≤ xs.foldl Nat.max a := by
  induction xs generalizing a with
  | nil => cases hb
  | cons x rest ih =>
      rcases List.mem_cons.mp hb with h | h
      · subst h
        exact le_trans (Nat.le_max_right a b) (foldl_max_init_le rest _)
      · exact ih (Nat.max a x) h

theorem foldl_max_mem (xs : List Nat) (a : Nat) :
    xs.foldl Nat.max a = a ∨ xs.foldl Nat.max a ∈ xs := by
  induction xs generalizing a with
  | nil => exact Or.inl rfl
  | cons x rest ih =>
      rcases ih (Nat.max a x) with h | h
      · rcases Nat.le_total a x with hax | hax
        · right
          have hmx : Nat.max a x = x := Nat.max_eq_right hax
          rw [List.foldl_cons, h, hmx]
          exact List.mem_cons_self x rest
        · left
          have hmx : Nat.max a x = a := Nat.max_eq_left hax
          rw [List.foldl_cons, h, hmx]
      · exact Or.inr (List.mem_cons_of_mem _ h)

/-- `listMaxNat` returns an element of the list that bounds every element. -/
theorem listMaxNat_spec (l : List Nat) (m : Nat) (h : listMaxNat l = some m) :
    m ∈ l ∧ ∀ x ∈ l, x ≤ m := by
  cases l with
  | nil => exact absurd h (by simp [listMaxNat])
  | cons x xs =>
      have hm : m = xs.foldl Nat.max x := by
        simpa [listMaxNat] using h.symm
      subst hm
      constructor
      · rcases foldl_max_mem xs x with h1 | h1
        · rw [h1]; exact List.mem_cons_self x xs
        · exact List.mem_cons_of_mem _ h1
      · intro y hy
        rcases List.mem_cons.mp hy with h1 | h1
        · subst h1; exact foldl_max_init_le xs y
        · exact foldl_max_le xs x y h1

theorem listMaxNat_eq_none_iff (l : List Nat) :
    listMaxNat l = none ↔ l = [] := by
  cases l <;> simp [listMaxNat]

/-- The maximum of a list depends only on its set of members. -/
theorem listMaxNat_congr (l l2 : List Nat) (h : ∀ x, x ∈ l ↔ x ∈ l2) :
    listMaxNat l = listMaxNat l2 := by
  cases hl : listMaxNat l with
  | none =>
      rw [listMaxNat_eq_none_iff] at hl
      subst hl
      have : l2 = [] := by
        cases l2 with
        | nil => rfl
        | cons y ys => exact absurd ((h y).mpr (List.mem_cons_self y ys)) (by simp)
      rw [this]
      rfl
  | some m =>
      rcases listMaxNat_spec l m hl with ⟨hmem, hbound⟩
      cases hl2 : listMaxNat l2 with
      | none =>
          rw [listMaxNat_eq_none_iff] at hl2
          subst hl2
          exact absurd ((h m).mp hmem) (by simp)
      | some m2 =>
          rcases listMaxNat_spec l2 m2 hl2 with ⟨hmem2, hbound2⟩
          have h1 : m ≤ m2 := hbound2 m ((h m).mp hmem)
          have h2 : m2 ≤ m := hbound m2 ((h m2).mpr hmem2)
          rw [Nat.le_antisymm h1 h2]

/-- `compute_level_information` depends only on the set of particle keys:
any two inputs with the same key set produce the same triple. -/
theorem computeLevelInformation_congr (pks pks2 : List MortonKey)
    (h : pks.toFinset = pks2.toFinset) :
    computeLevelInformation pks = computeLevelInformation pks2 := by
  have hmem : ∀ k, k ∈ pks ↔ k ∈ pks2 := by
    intro k
    rw [← List.mem_toFinset, h, List.mem_toFinset]
  have hmax : listMaxNat (pks.map findLevel) = listMaxNat (pks2.map findLevel) := by
    apply listMaxNat_congr
    intro x
    simp only [List.mem_map]
    constructor
    · rintro ⟨k, hk, hx⟩; exact ⟨k, (hmem k).mp hk, hx⟩
    · rintro ⟨k, hk, hx⟩; exact ⟨k, (hmem k).mpr hk, hx⟩
  unfold computeLevelInformation
  rw [hmax, h]

/-- The second loop of `compute_leaf_map` gives the same map for any
enumeration of the distinct particle keys in the initialization loop. -/
theorem computeLeafMapWithInit_congr (initOrd pks : List MortonKey)
    (h : initOrd.toFinset = pks.toFinset) (q : MortonKey) :
    computeLeafMapWithInit initOrd pks q = computeLeafMap pks q := by
  have hinit : insertConstAll (∅ : Finset Nat) initOrd =
      insertConstAll ∅ pks.dedup := by
    funext r
    rw [insertConstAll_apply, insertConstAll_apply]
    have : r ∈ initOrd ↔ r ∈ pks.dedup := by
      rw [List.mem_dedup, ← List.mem_toFinset, h, List.mem_toFinset]
    by_cases hr : r ∈ initOrd
    · rw [if_pos hr, if_pos (this.mp hr)]
    · rw [if_neg hr, if_neg (fun hc => hr (this.mpr hc))]
  rw [computeLeafMapWithInit, computeLeafMap, hinit]

/-- C8: the four builders are deterministic.  The two relation maps are
independent of both the hash-set enumeration order and the order in which the
parallel iteration processes the entries; `compute_level_information` depends
only on the key set; and `compute_leaf_map` is independent of the enumeration
order of its initialization loop.  Hence two runs on identical inputs return
equal maps and sets. -/
theorem c8_determinism (allKeys allKeys2 eo eo2 pks pks2 o : List MortonKey)
    (h1 : allKeys.toFinset = allKeys2.toFinset)
    (h2 : eo.toFinset = allKeys.toFinset)
    (h3 : eo2.toFinset = allKeys2.toFinset)
    (h4 : eo.Nodup) (h5 : eo2.Nodup)
    (h6 : pks.toFinset = pks2.toFinset)
    (h7 : o.toFinset = pks.toFinset) :
    (∀ q, computeNearFieldMap allKeys eo q =
      computeNearFieldMap allKeys2 eo2 q) ∧
    (∀ q, computeInteractionListMap allKeys eo q =
      computeInteractionListMap allKeys2 eo2 q) ∧
    computeLevelInformation pks = computeLevelInformation pks2 ∧
    (∀ q, computeLeafMapWithInit o pks q = computeLeafMap pks q) := by
  have hmemA : ∀ q, q ∈ allKeys ↔ q ∈ allKeys2 := by
    intro q
    rw [← List.mem_toFinset, h1, List.mem_toFinset]
  refine ⟨?_, ?_, computeLevelInformation_congr pks pks2 h6,
    fun q => computeLeafMapWithInit_congr o pks h7 q⟩
  · intro q
    rw [computeNearFieldMap, computeNearFieldMap,
      relationMap_apply _ _ _ h2 h4, relationMap_apply _ _ _ h3 h5]
    by_cases hq : q ∈ allKeys
    · rw [if_pos hq, if_pos ((hmemA q).mp hq)]
    · rw [if_neg hq, if_neg (fun hc => hq ((hmemA q).mpr hc))]
  · intro q
    rw [computeInteractionListMap, computeInteractionListMap,
      relationMap_apply _ _ _ h2 h4, relationMap_apply _ _ _ h3 h5]
    by_cases hq : q ∈ allKeys
    · rw [if_pos hq, if_pos ((hmemA q).mp hq)]
    · rw [if_neg hq, if_neg (fun hc => hq ((hmemA q).mpr hc))]

theorem c8_determinism_witness :
    ([keyA] : List MortonKey).Nodup ∧
    (∀ q, computeNearFieldMap [keyA] [keyA] q =
      computeNearFieldMap [keyA] [keyA] q) ∧
    computeLevelInformation [keyA] = computeLevelInformation [keyA] ∧
    (∀ q, computeLeafMapWithInit [keyA] [keyA] q =
      computeLeafMap [keyA] q) := by
  have h := c8_determinism [keyA] [keyA] [keyA] [keyA] [keyA] [keyA] [keyA]
    rfl rfl rfl (by decide) (by decide) rfl rfl
  exact ⟨by decide, h.1, h.2.2.1, h.2.2.2⟩

/-- C5: the three accessor wrappers return, respectively, the length of the
tree's key sequence, the length of its point sequence, and the `balanced`
flag recorded at build time, and each leaves every field of the tree
unchanged. -/
theorem c5_accessors_pure {P : Type} (t : DistributedTree P) :
    (distributedTreeNkeys t).1 = t.keys.length ∧
    (distributedTreeNpoints t).1 = t.points.length ∧
    (distributedTreeBalanced t).1 = t.balanced ∧
    (distributedTreeNkeys t).2 = t ∧
    (distributedTreeNpoints t).2 = t ∧
    (distributedTreeBalanced t).2 = t :=
  ⟨rfl, rfl, rfl, rfl, rfl, rfl⟩

/-- C6: no C-API entry point that receives a communicator handle closes or
frees it — the open-communicator set is unchanged by every call, including
the destruction of a returned tree — so a communicator open before any of
these calls is still open afterwards. -/
theorem c6_communicator_borrowed (st : FfiState)
    (pPoints comm treeAlloc pTree pFilename : Nat) :
    (distributedTreeFromPoints st pPoints comm treeAlloc).openComms =
      st.openComms ∧
    (distributedTreeWriteVtk st comm pTree pFilename).openComms =
      st.openComms ∧
    (distributedTreeWriteHdf5 st comm pTree pFilename).openComms =
      st.openComms ∧
    (distributedTreeReadHdf5 st comm pFilename treeAlloc).openComms =
      st.openComms ∧
    (distributedTreeDestroy st pTree).openComms = st.openComms :=
  ⟨rfl, rfl, rfl, rfl, rfl⟩

/-- C7: the claim states that the filename buffers passed to
`distributed_tree_write_vtk`, `distributed_tree_write_hdf5` and
`distributed_tree_read_hdf5` are only borrowed.  In the code each of these
entry points takes ownership of the buffer with `CString::from_raw` and the
temporary `CString` is dropped at the end of the statement, freeing the
caller's buffer.  Evaluated at a concrete state in which allocation `5` is a
live caller buffer, all three calls remove it from the live set. -/
theorem c7_filename_buffer_freed :
    (5 : Nat) ∈ (FfiState.mk {5} {9}).liveAllocs ∧
    (5 : Nat) ∉ (distributedTreeWriteVtk (FfiState.mk {5} {9}) 9 3 5).liveAllocs ∧
    (5 : Nat) ∉ (distributedTreeWriteHdf5 (FfiState.mk {5} {9}) 9 3 5).liveAllocs ∧
    (5 : Nat) ∉ (distributedTreeReadHdf5 (FfiState.mk {5} {9}) 9 5 7).liveAllocs := by
  refine ⟨by decide, ?_, ?_, ?_⟩ <;> decide

/-! ## C3: the VTK export -/

/-- C3: the claim asserts one voxel cell per *leaf* key.  The exporter
iterates `tree.all_keys`, which also contains every ancestor key.
Counterexample: the tree whose particle keys are `[keyA]` has, by
`compute_level_information`, the key set `{rootKey, keyA}` as `all_keys`
(first conjunct), and the export then contains two voxel cells while the
tree has exactly one distinct leaf key. -/
theorem c3_counterexample :
    (computeLevelInformation treeC3.particleKeys).map (fun t => t.2.1) =
      some treeC3.allKeys.toFinset ∧
    (exportToVtk serializeBox24 treeC3).types.count VtkCellType.Voxel = 2 ∧
    treeC3.particleKeys.dedup.length = 1 ∧
    ¬ ((exportToVtk serializeBox24 treeC3).types.count VtkCellType.Voxel =
        treeC3.particleKeys.dedup.length) := by
  refine ⟨by decide, by decide, by decide, by decide⟩

theorem length_flatMap_of_const {α : Type} (f : MortonKey → List α)
    (h : ∀ k, (f k).length = 24) (l : List MortonKey) :
    (l.flatMap f).length = 24 * l.length := by
  induction l with
  | nil => simp
  | cons k rest ih =>
      rw [List.flatMap_cons, List.length_append, ih, h k, List.length_cons]
      ring

/-- C3 (amended): the export emits one voxel cell per key of
`tree.all_keys` (which includes non-leaf ancestor keys), followed by a
single poly-vertex cell holding all particle coordinates, with the `colors`
cell attribute equal to `0` on every voxel cell and `1` on the poly-vertex
cell.  Concretely, writing `nk` for the number of keys: there are `nk + 1`
cells; cell `i < nk` is a voxel with color `0`; cell `nk` is a poly-vertex
with color `1` whose offset closes at the total point count
`8·nk + npoints`; and the coordinates appended after the `24·nk` voxel
corner scalars are exactly the particle coordinates. -/
theorem c3_export_structure {α : Type} (serializeBox : MortonKey → List α)
    (tree : OctreeData α) (h24 : ∀ k, (serializeBox k).length = 24) :
    (exportToVtk serializeBox tree).types.length = tree.allKeys.length + 1 ∧
    (exportToVtk serializeBox tree).cellData.length =
      tree.allKeys.length + 1 ∧
    (∀ i, i < tree.allKeys.length →
      (exportToVtk serializeBox tree).types.get? i = some VtkCellType.Voxel ∧
      (exportToVtk serializeBox tree).cellData.get? i = some 0) ∧
    (exportToVtk serializeBox tree).types.get? tree.allKeys.length =
      some VtkCellType.PolyVertex ∧
    (exportToVtk serializeBox tree).cellData.get? tree.allKeys.length =
      some 1 ∧
    (exportToVtk serializeBox tree).offsets.get? tree.allKeys.length =
      some (8 * tree.allKeys.length + tree.particles.length) ∧
    (exportToVtk serializeBox tree).cellPoints.drop
        (24 * tree.allKeys.length) =
      tree.particles.flatMap (fun p => [p.1, p.2.1, p.2.2]) ∧
    (exportToVtk serializeBox tree).connectivity =
      List.range (8 * tree.allKeys.length + tree.particles.length) := by
  refine ⟨by simp [exportToVtk], by simp [exportToVtk], ?_, ?_, ?_, ?_, ?_, rfl⟩
  · intro i hi
    constructor
    · show (List.replicate tree.allKeys.length VtkCellType.Voxel ++
        [VtkCellType.PolyVertex]).get? i = some VtkCellType.Voxel
      rw [List.get?_append (by simpa using hi)]
      simp [List.get?_eq_getElem?, hi]
    · show (List.replicate tree.allKeys.length (0 : Int) ++
        [(1 : Int)]).get? i = some 0
      rw [List.get?_append (by simpa using hi)]
      simp [List.get?_eq_getElem?, hi]
  · show (List.replicate tree.allKeys.length VtkCellType.Voxel ++
      [VtkCellType.PolyVertex]).get? tree.allKeys.length =
        some VtkCellType.PolyVertex
    rw [List.get?_append_right (by simp)]
    simp
  · show (List.replicate tree.allKeys.length (0 : Int) ++
      [(1 : Int)]).get? tree.allKeys.length = some 1
    rw [List.get?_append_right (by simp)]
    simp
  · show ((List.range tree.allKeys.length).map (fun i => 8 * i + 8) ++
      [8 * tree.allKeys.length + tree.particles.length]).get?
        tree.allKeys.length = some (8 * tree.allKeys.length +
          tree.particles.length)
    rw [List.get?_append_right (by simp)]
    simp
  · show (tree.allKeys.flatMap serializeBox ++
      tree.particles.flatMap (fun p => [p.1, p.2.1, p.2.2])).drop
        (24 * tree.allKeys.length) =
      tree.particles.flatMap (fun p => [p.1, p.2.1, p.2.2])
    exact List.drop_left' (length_flatMap_of_const serializeBox h24 _)

theorem c3_export_structure_witness :
    (∀ k, (serializeBox24 k).length = 24) ∧
    (exportToVtk serializeBox24 treeC3).types.get? treeC3.allKeys.length =
      some VtkCellType.PolyVertex ∧
    (exportToVtk serializeBox24 treeC3).cellData.get? treeC3.allKeys.length =
      some 1 :=
  ⟨fun _ => rfl,
    (c3_export_structure serializeBox24 treeC3 (fun _ => rfl)).2.2.2.1,
    (c3_export_structure serializeBox24 treeC3 (fun _ => rfl)).2.2.2.2.1⟩

/-! ## Analysis of the parent-filling loop of `compute_level_information` -/

theorem levelFinal_top (lf : Finset MortonKey) (M : Nat) :
    levelFinal lf M M = levelLeaves lf M := by
  rw [levelFinal, Nat.sub_self]
  rfl

theorem levelFinal_succ (lf : Finset MortonKey) (M l : Nat) (hl : l < M) :
    levelFinal lf M l =
      levelLeaves lf l ∪ (levelFinal lf M (l + 1)).image findParent := by
  have hd : M - l = (M - (l + 1)) + 1 := by omega
  have harg : M - ((M - (l + 1)) + 1) = l := by omega
  rw [levelFinal, hd]
  show levelLeaves lf (M - ((M - (l + 1)) + 1)) ∪
      (levelFinalAux lf M (M - (l + 1))).image findParent = _
  rw [harg]
  rfl

theorem levelInit_eq_stateAt (lf : Finset MortonKey) (M : Nat) :
    levelInit lf M = levelStateAt lf M (M + 1) := by
  funext l
  unfold levelInit levelStateAt
  by_cases hl : l < M + 1
  · rw [if_pos hl, if_pos hl]
    by_cases hM : M + 1 ≤ l + 1
    · have hlM : l = M := by omega
      subst hlM
      rw [if_pos hM, levelFinal_top]
    · rw [if_neg hM]
  · rw [if_neg hl, if_neg hl]

theorem levelStep_stateAt (lf : Finset MortonKey) (M c : Nat) (hc1 : 1 ≤ c)
    (hcM : c ≤ M) :
    levelStep (levelStateAt lf M (c + 1)) c = levelStateAt lf M c := by
  have hcur : levelStateAt lf M (c + 1) c = some (levelFinal lf M c) := by
    unfold levelStateAt
    rw [if_pos (by omega), if_pos (by omega)]
  have hprev : levelStateAt lf M (c + 1) (c - 1) =
      some (levelLeaves lf (c - 1)) := by
    unfold levelStateAt
    rw [if_pos (by omega), if_neg (by omega)]
  funext l
  by_cases hl : l = c - 1
  · subst hl
    unfold levelStep
    rw [if_pos rfl, hcur, hprev]
    have h6 : c - 1 + 1 = c := by omega
    have hfs := levelFinal_succ lf M (c - 1) (by omega)
    rw [h6] at hfs
    unfold levelStateAt
    rw [if_pos (by omega), if_pos (by omega), hfs]
    rfl
  · unfold levelStep
    rw [if_neg hl]
    unfold levelStateAt
    by_cases h2 : l < M + 1
    · rw [if_pos h2, if_pos h2]
      by_cases h3 : c + 1 ≤ l + 1
      · rw [if_pos h3, if_pos (by omega)]
      · rw [if_neg h3, if_neg (by omega : ¬ c ≤ l + 1)]
    · rw [if_neg h2, if_neg h2]

theorem fold_stateAt (lf : Finset MortonKey) (M : Nat) (m : Nat) (hm : m ≤ M) :
    (revRangeFromOne m).foldl levelStep (levelStateAt lf M (m + 1)) =
      levelStateAt lf M 1 := by
  induction m with
  | zero => rfl
  | succ m ih =>
      show ((m + 1) :: revRangeFromOne m).foldl levelStep
        (levelStateAt lf M (m + 1 + 1)) = levelStateAt lf M 1
      rw [List.foldl_cons,
        levelStep_stateAt lf M (m + 1) (by omega) (by omega)]
      exact ih (by omega)

theorem levelFold_closed (lf : Finset MortonKey) (M : Nat) (l : Nat) :
    ((revRangeFromOne M).foldl levelStep (levelInit lf M)) l =
      if l < M + 1 then some (levelFinal lf M l) else none := by
  rw [levelInit_eq_stateAt, fold_stateAt lf M M (le_refl M)]
  unfold levelStateAt
  by_cases hl : l < M + 1
  · rw [if_pos hl, if_pos (by omega), if_pos hl]
  · rw [if_neg hl, if_neg hl]

theorem mem_levelFinalAux_level (lf : Finset MortonKey) (M : Nat) (d : Nat)
    (k : MortonKey) (hk : k ∈ levelFinalAux lf M d) : findLevel k = M - d := by
  induction d generalizing k with
  | zero =>
      have h := Finset.mem_filter.mp hk
      simpa using h.2
  | succ d ih =>
      rcases Finset.mem_union.mp hk with h | h
      · exact (Finset.mem_filter.mp h).2
      · rcases Finset.mem_image.mp h with ⟨j, hj, rfl⟩
        have hj2 := ih j hj
        simp only [findLevel, findParent] at hj2 ⊢
        omega

theorem mem_levelFinal_level (lf : Finset MortonKey) (M l : Nat) (hl : l ≤ M)
    (k : MortonKey) (hk : k ∈ levelFinal lf M l) : findLevel k = l := by
  have := mem_levelFinalAux_level lf M (M - l) k hk
  omega

theorem levelLeaves_subset_final (lf : Finset MortonKey) (M l : Nat)
    (hl : l ≤ M) : levelLeaves lf l ⊆ levelFinal lf M l := by
  rcases Nat.lt_or_ge l M with h | h
  · rw [levelFinal_succ lf M l h]
    exact Finset.subset_union_left
  · have hlM : l = M := by omega
    subst hlM
    rw [levelFinal_top]

/-- C9: on an empty particle key array, `compute_level_information` hits the
`max().unwrap()` panic (modelled as `none`) instead of returning a value, and
so does `compute_complete_regular_tree`, whose `encode_points` output is
empty exactly when the particle array is; on every non-empty input both
return normally. -/
theorem c9_empty_input_aborts :
    computeLevelInformation [] = none ∧
    (∀ pks : List MortonKey, pks ≠ [] →
      (computeLevelInformation pks).isSome) ∧
    (∀ (maxLevel : Nat) (origin diameter : ℚ × ℚ × ℚ),
      computeCompleteRegularTree [] maxLevel origin diameter = none) ∧
    (∀ (particles : List (ℚ × ℚ × ℚ)) (maxLevel : Nat)
      (origin diameter : ℚ × ℚ × ℚ), particles ≠ [] →
      (computeCompleteRegularTree particles maxLevel origin diameter).isSome) := by
  have hsome : ∀ pks : List MortonKey, pks ≠ [] →
      (computeLevelInformation pks).isSome := by
    intro pks hne
    cases pks with
    | nil => exact absurd rfl hne
    | cons k rest =>
        unfold computeLevelInformation
        rw [List.map_cons]
        rfl
  refine ⟨rfl, hsome, fun _ _ _ => rfl, ?_⟩
  intro ps L o d hne
  have hkeys : encodePoints ps L o d ≠ [] := by
    cases ps with
    | nil => exact absurd rfl hne
    | cons p rest => simp [encodePoints]
  rcases Option.isSome_iff_exists.mp (hsome (encodePoints ps L o d) hkeys)
    with ⟨t, ht⟩
  rw [computeCompleteRegularTree, ht]
  rfl

theorem c9_empty_input_aborts_witness :
    ([keyA] : List MortonKey) ≠ [] ∧
    (computeLevelInformation [keyA]).isSome ∧
    ([((0 : ℚ), (0 : ℚ), (0 : ℚ))] : List (ℚ × ℚ × ℚ)) ≠ [] ∧
    (computeCompleteRegularTree [((0 : ℚ), (0 : ℚ), (0 : ℚ))] 1
      ((0 : ℚ), (0 : ℚ), (0 : ℚ)) ((1 : ℚ), (1 : ℚ), (1 : ℚ))).isSome :=
  ⟨by simp, c9_empty_input_aborts.2.1 [keyA] (by simp), by simp,
    c9_empty_input_aborts.2.2.2 [((0 : ℚ), (0 : ℚ), (0 : ℚ))] 1
      ((0 : ℚ), (0 : ℚ), (0 : ℚ)) ((1 : ℚ), (1 : ℚ), (1 : ℚ)) (by simp)⟩


/-- C10: for every non-empty particle key array, `compute_level_information`
returns `(max_level, all_keys, level_keys)` where: `all_keys` contains every
input key and is closed under taking parents (for every contained key at
level `> 0` its parent is also contained); every contained key has level at
most `max_level`; `level_keys` maps each level `l ≤ max_level` to exactly the
keys of `all_keys` whose level is `l` (and has no entry above `max_level`);
and `max_level` is the maximum level over the input keys. -/
theorem c10_level_information (pks : List MortonKey) (hne : pks ≠ []) :
    ∃ M A lk, computeLevelInformation pks = some (M, A, lk) ∧
      (∀ k ∈ pks, k ∈ A) ∧
      (∀ k ∈ A, 0 < findLevel k → findParent k ∈ A) ∧
      (∀ k ∈ A, findLevel k ≤ M) ∧
      (∀ l, l ≤ M → lk l = some (A.filter (fun k => findLevel k = l))) ∧
      (∀ l, M < l → lk l = none) ∧
      (∀ k ∈ pks, findLevel k ≤ M) ∧ (∃ k ∈ pks, findLevel k = M) := by
  cases hmax : listMaxNat (pks.map findLevel) with
  | none =>
      rw [listMaxNat_eq_none_iff] at hmax
      cases pks with
      | nil => exact absurd rfl hne
      | cons a l => exact absurd hmax (by simp)
  | some M =>
      have hbound := listMaxNat_spec _ M hmax
      have hclosed : ∀ l,
          ((revRangeFromOne M).foldl levelStep (levelInit pks.toFinset M)) l =
            if l < M + 1 then some (levelFinal pks.toFinset M l) else none :=
        levelFold_closed pks.toFinset M
      have hAmem : ∀ k, (k ∈ (Finset.range (M + 1)).biUnion
          (fun l => (((revRangeFromOne M).foldl levelStep
            (levelInit pks.toFinset M)) l).getD ∅)) ↔
          ∃ l, l ≤ M ∧ k ∈ levelFinal pks.toFinset M l := by
        intro k
        simp only [Finset.mem_biUnion, Finset.mem_range]
        constructor
        · rintro ⟨l, hl, hk⟩
          rw [hclosed l, if_pos hl] at hk
          exact ⟨l, by omega, by simpa using hk⟩
        · rintro ⟨l, hl, hk⟩
          refine ⟨l, by omega, ?_⟩
          rw [hclosed l, if_pos (by omega)]
          simpa using hk
      have hkb : ∀ k ∈ pks, findLevel k ≤ M := fun k hk =>
        hbound.2 (findLevel k) (List.mem_map_of_mem findLevel hk)
      have hmemA : ∀ k ∈ pks, ∃ l, l ≤ M ∧ k ∈ levelFinal pks.toFinset M l := by
        intro k hk
        refine ⟨findLevel k, hkb k hk, ?_⟩
        apply levelLeaves_subset_final pks.toFinset M (findLevel k) (hkb k hk)
        rw [levelLeaves, Finset.mem_filter]
        exact ⟨List.mem_toFinset.mpr hk, rfl⟩
      refine ⟨M,
        (Finset.range (M + 1)).biUnion
          (fun l => (((revRangeFromOne M).foldl levelStep
            (levelInit pks.toFinset M)) l).getD ∅),
        (revRangeFromOne M).foldl levelStep (levelInit pks.toFinset M),
        ?_, ?_, ?_, ?_, ?_, ?_, hkb, ?_⟩
      · unfold computeLevelInformation
        rw [hmax]
      · intro k hk
        exact (hAmem k).mpr (hmemA k hk)
      · intro k hk hpos
        rcases (hAmem k).mp hk with ⟨l, hl, hkf⟩
        have hlev := mem_levelFinal_level pks.toFinset M l hl k hkf
        apply (hAmem (findParent k)).mpr
        refine ⟨l - 1, by omega, ?_⟩
        rw [levelFinal_succ pks.toFinset M (l - 1) (by omega)]
        apply Finset.mem_union_right
        have hsucc : l - 1 + 1 = l := by omega
        rw [hsucc]
        exact Finset.mem_image_of_mem findParent hkf
      · intro k hk
        rcases (hAmem k).mp hk with ⟨l, hl, hkf⟩
        have := mem_levelFinal_level pks.toFinset M l hl k hkf
        omega
      · intro l hl
        rw [hclosed l, if_pos (by omega)]
        congr 1
        ext k
        simp only [Finset.mem_filter]
        constructor
        · intro hkf
          exact ⟨(hAmem k).mpr ⟨l, hl, hkf⟩,
            mem_levelFinal_level pks.toFinset M l hl k hkf⟩
        · rintro ⟨hkA, hkl⟩
          rcases (hAmem k).mp hkA with ⟨l2, hl2, hkf⟩
          have hl2eq := mem_levelFinal_level pks.toFinset M l2 hl2 k hkf
          have hll : l2 = l := by omega
          subst hll
          exact hkf
      · intro l hl
        rw [hclosed l, if_neg (by omega)]
      · rcases List.mem_map.mp hbound.1 with ⟨k, hk, hkl⟩
        exact ⟨k, hk, hkl⟩

theorem c10_level_information_witness :
    ([keyA] : List MortonKey) ≠ [] ∧
    (∃ M A lk, computeLevelInformation [keyA] = some (M, A, lk) ∧
      (∀ k ∈ [keyA], k ∈ A) ∧
      (∀ k ∈ A, 0 < findLevel k → findParent k ∈ A) ∧
      (∀ k ∈ A, findLevel k ≤ M) ∧
      (∀ l, l ≤ M → lk l = some (A.filter (fun k => findLevel k = l))) ∧
      (∀ l, M < l → lk l = none) ∧
      (∀ k ∈ [keyA], findLevel k ≤ M) ∧
      (∃ k ∈ [keyA], findLevel k = M)) :=
  ⟨by simp, c10_level_information [keyA] (by simp)⟩
